import Mathlib

/-!
Verification of the argo-dataflow step controller and sidecar status loop.

The Go sources embedded here are `controllers/step_controller.go`
(the `Reconcile` method of `StepReconciler`) and the sidecar package
(`Exec` / `patchStepStatus`).  Pure fragments become Lean functions; the
reconcile loop and the sidecar merge cycle become explicit state-passing
functions parametrised by the outcomes of the external API calls they make.
Go maps are embedded as association lists with first-match lookup and
replace-or-append assignment, which matches map semantics as long as keys
are unique (Go maps guarantee this; well-formedness hypotheses record it
where needed).  Machine integers (`int`, `uint32`, `uint64`) stay within
tiny ranges here (replica counts, counters) and are embedded as `Nat`.
Types of the `dfv1` API package and shared utilities that are not part of
the embedded sources are modelled from the specification and carry a
`Modelled from the spec:` note on their doc comment.
-/

set_option maxHeartbeats 1000000

namespace ArgoDataflow

/-! ### Association lists: the embedding of Go maps -/

/-- Go map read `m[k]`: first-match lookup in the association list;
`none` models an absent key. -/
def alookup {β : Type} : List (Nat × β) → Nat → Option β
  | [], _ => none
  | (k', v) :: rest, k => if k' = k then some v else alookup rest k

/-- Go map assignment `m[k] = v`: replace the first binding of `k`,
or append a new binding when `k` is absent. -/
def ainsert {β : Type} : List (Nat × β) → Nat → β → List (Nat × β)
  | [], k, v => [(k, v)]
  | (k', v') :: rest, k, v =>
      if k' = k then (k, v) :: rest else (k', v') :: ainsert rest k v

theorem alookup_ainsert_self {β : Type} (m : List (Nat × β)) (k : Nat) (v : β) :
    alookup (ainsert m k v) k = some v := by
  induction m with
  | nil => simp [ainsert, alookup]
  | cons hd tl ih =>
      obtain ⟨k', v'⟩ := hd
      by_cases h : k' = k <;> simp [ainsert, alookup, h, ih]

theorem alookup_ainsert_ne {β : Type} (m : List (Nat × β)) (k k' : Nat) (v : β)
    (h : k' ≠ k) : alookup (ainsert m k v) k' = alookup m k' := by
  have h' : ¬(k = k') := fun e => h e.symm
  induction m with
  | nil => simp [ainsert, alookup, h']
  | cons hd tl ih =>
      obtain ⟨k₀, v₀⟩ := hd
      by_cases h₀ : k₀ = k
      · subst h₀
        simp [ainsert, alookup, h']
      · simp [ainsert, alookup, h₀, ih]

/-! ### Data model (`dfv1` API types, modelled from the spec §3) -/

/-- The `dfv1.Metrics` type (package `v1alpha1`, source appended in
`docs/EXAMPLES.md`): per-replica counters `{Replica uint32, Total uint64,
Pending uint64}`; `pending` is the scaling signal.  The unsigned integers
are embedded as `Nat`: the embedded code only stores and copies these
fields, never computes with them, so no overflow reduction arises. -/
structure Metrics where
  replica : Nat
  total : Nat
  pending : Nat
  deriving DecidableEq, Repr

/-- The Go zero value `Metrics{}`, produced by reading an absent key. -/
def Metrics.zero : Metrics := ⟨0, 0, 0⟩

/-- Per-replica metric map `map[replicaIndex(string)→Metrics]`.  Keys are
decimal strings of replica indices in Go (`strconv.Itoa(replica)`); since
`Itoa` is injective they are embedded as the indices themselves. -/
abbrev MetricsMap := List (Nat × Metrics)

/-- Modelled from the spec: `SourceStatus: {metrics: map[replicaIndex→Metrics]}`.
The `metrics` field is `Option`-valued because the sidecar source
distinguishes a `nil` Go map from an empty one before assigning into it. -/
structure SourceStatus where
  metrics : Option MetricsMap
  deriving DecidableEq, Repr

/-- The `sourceStatuses` / `sinkStatuses` maps `map[sourceName→SourceStatus]`.
Source and sink names are small identifiers; they are embedded as `Nat`
keys (the embedding never inspects their text). -/
abbrev SourceStatuses := List (Nat × SourceStatus)

/-- Modelled from the spec: the step phase, a total order where any single
failing replica drags the aggregate down and `Unknown` is the default
(top) element, matching `dfv1.MinStepPhase`'s preference list
Failed < Pending < Running < Succeeded < Unknown. -/
inductive StepPhase where
  | failed
  | pending
  | running
  | succeeded
  | unknown
  deriving DecidableEq, Repr

/-- Rank of a phase in the `MinStepPhase` preference list (lower = worse). -/
def StepPhase.rank : StepPhase → Nat
  | .failed => 0
  | .pending => 1
  | .running => 2
  | .succeeded => 3
  | .unknown => 4

/-- Modelled from the spec: `dfv1.MinStepPhase` — the smaller phase under
the total order above. -/
def MinStepPhase (a b : StepPhase) : StepPhase :=
  if a.rank ≤ b.rank then a else b

/-- Modelled from the spec: `dfv1.StepPhase.Completed()` — the terminal
phases. -/
def StepPhase.Completed : StepPhase → Bool
  | .succeeded => true
  | .failed => true
  | _ => false

/-- Modelled from the spec: `dfv1.StepStatus` — `{phase, message, replicas, lastScaleTime,
sourceStatuses, sinkStatuses}` (spec §3).  `lastScaleTime` is an absolute
timestamp embedded as seconds (`Option` models the Go `nil` pointer); the
two metric maps are `Option`-valued to model `nil` Go maps.  The field
`sinkStatues` keeps the source's spelling. -/
structure StepStatus where
  phase : StepPhase
  message : String
  replicas : Nat
  lastScaleTime : Option Nat
  sourceStatuses : Option SourceStatuses
  sinkStatues : Option SourceStatuses
  deriving DecidableEq, Repr

/-! ### ScalingCalculator -/

/-- Modelled from the spec: `ScalingPolicy: {min: int, max: int or
unbounded, ratio: float or undefined}` (`dfv1` `Replicas`, reached through
`step.Spec.GetReplicas()`).  Ratios are configured as whole
backlog-per-replica targets, embedded as `Nat`. -/
structure ReplicasPolicy where
  min : Nat
  max : Option Nat
  ratio : Option Nat
  deriving DecidableEq, Repr

/-- Modelled from the spec: `Replicas.Calculate` (called at
`step_controller.go:68`, defined in the `dfv1` package): if `ratio` is
undefined return `min`; else `raw = ceil(pending / ratio)`, clamped to
`[min, max]`, clamped only below when `max` is undefined. -/
def ReplicasPolicy.Calculate (p : ReplicasPolicy) (pending : Nat) : Nat :=
  match p.ratio with
  | none => p.min
  | some r =>
      let raw := (pending + r - 1) / r
      match p.max with
      | none => Nat.max raw p.min
      | some hi => Nat.min (Nat.max raw p.min) hi

theorem calculate_ratio_none (p : ReplicasPolicy) (pending : Nat)
    (h : p.ratio = none) : p.Calculate pending = p.min := by
  simp [ReplicasPolicy.Calculate, h]

/-- The raw value computed by `Calculate` is the ceiling of
`pending / r`: the least `c` with `pending ≤ c * r`. -/
theorem calculate_raw_is_ceil (pending r : Nat) (hr : 0 < r) :
    pending ≤ ((pending + r - 1) / r) * r ∧
      ((pending + r - 1) / r) * r < pending + r := by
  obtain ⟨r', rfl⟩ : ∃ r', r = r' + 1 := ⟨r - 1, by omega⟩
  have hd := Nat.div_add_mod (pending + r') (r' + 1)
  have hm : (pending + r') % (r' + 1) < r' + 1 := Nat.mod_lt _ (Nat.succ_pos r')
  have he : pending + (r' + 1) - 1 = pending + r' := by omega
  rw [he, Nat.mul_comm ((pending + r') / (r' + 1)) (r' + 1)]
  generalize hP : (r' + 1) * ((pending + r') / (r' + 1)) = P at hd ⊢
  generalize hM : (pending + r') % (r' + 1) = M at hd hm
  omega

/-! ### Pod names and the pod lifecycle (`Reconcile`, lines 81–154) -/

/-- Decimal digit character, as produced by Go's `strconv.Itoa`. -/
def decChar (d : Nat) : Char :=
  if d = 0 then '0' else if d = 1 then '1' else if d = 2 then '2'
  else if d = 3 then '3' else if d = 4 then '4' else if d = 5 then '5'
  else if d = 6 then '6' else if d = 7 then '7' else if d = 8 then '8'
  else '9'

/-- Decimal digits of `n`, least significant first, by fuel-bounded
structural recursion (so that concrete values reduce in the kernel). -/
def decDigitsAux : Nat → Nat → List Nat
  | _, 0 => []
  | 0, _ + 1 => []
  | fuel + 1, n + 1 => (n + 1) % 10 :: decDigitsAux fuel ((n + 1) / 10)

def decDigits (n : Nat) : List Nat :=
  decDigitsAux n n

theorem decDigitsAux_eq_digits (fuel n : Nat) (h : n ≤ fuel) :
    decDigitsAux fuel n = Nat.digits 10 n := by
  induction fuel generalizing n with
  | zero =>
      interval_cases n
      simp [decDigitsAux]
  | succ f ih =>
      cases n with
      | zero => simp [decDigitsAux]
      | succ m =>
          rw [show decDigitsAux (f + 1) (m + 1) =
            (m + 1) % 10 :: decDigitsAux f ((m + 1) / 10) from rfl]
          rw [Nat.digits_def' (by norm_num) (Nat.succ_pos m)]
          rw [ih ((m + 1) / 10) (by
            have := Nat.div_lt_self (Nat.succ_pos m) (by norm_num : (1 : Nat) < 10)
            omega)]

theorem decDigits_eq_digits (n : Nat) : decDigits n = Nat.digits 10 n :=
  decDigitsAux_eq_digits n n (le_refl n)

/-- Go's `strconv.Itoa` / `%d`: the decimal string of a natural number
(most significant digit first; `decDigits` lists digits least significant
first). -/
def itoa (n : Nat) : String :=
  if n = 0 then "0" else String.mk (((decDigits n).map decChar).reverse)

theorem decChar_inj_lt : ∀ d < 10, ∀ e < 10, decChar d = decChar e → d = e := by
  decide

theorem map_decChar_inj : ∀ l₁ l₂ : List Nat, (∀ x ∈ l₁, x < 10) →
    (∀ x ∈ l₂, x < 10) → l₁.map decChar = l₂.map decChar → l₁ = l₂ := by
  intro l₁
  induction l₁ with
  | nil => intro l₂ _ _ h; cases l₂ <;> simp_all
  | cons a tl ih =>
      intro l₂ h₁ h₂ h
      cases l₂ with
      | nil => simp_all
      | cons b tl₂ =>
          simp only [List.map_cons, List.cons.injEq] at h
          have ha : a = b := decChar_inj_lt a (h₁ a (by simp)) b (h₂ b (by simp)) h.1
          have ht : tl = tl₂ :=
            ih tl₂ (fun x hx => h₁ x (by simp [hx])) (fun x hx => h₂ x (by simp [hx])) h.2
          rw [ha, ht]

theorem itoa_inj {m n : Nat} (h : itoa m = itoa n) : m = n := by
  have hz : ∀ k : Nat, k ≠ 0 → itoa k ≠ "0" := by
    intro k hk he
    have hd : (Nat.digits 10 k).map decChar = [decChar 0] := by
      have := congrArg String.data he
      simp only [itoa, hk, if_false, decDigits_eq_digits] at this
      have : ((Nat.digits 10 k).map decChar).reverse = ['0'] := this
      have h2 : (Nat.digits 10 k).map decChar = ['0'].reverse := by
        rw [← this, List.reverse_reverse]
      simpa [decChar] using h2
    have hdig : Nat.digits 10 k = [0] :=
      map_decChar_inj _ [0]
        (fun x hx => Nat.digits_lt_base (by norm_num) hx) (by simp) hd
    have : k = 0 := by
      have := Nat.ofDigits_digits 10 k
      rw [hdig] at this
      simpa [Nat.ofDigits] using this.symm
    exact hk this
  by_cases hm : m = 0
  · by_cases hn : n = 0
    · rw [hm, hn]
    · exact absurd h.symm (by simpa [hm, itoa] using hz n hn)
  · by_cases hn : n = 0
    · exact absurd h (by simpa [hn, itoa] using hz m hm)
    · have hd : ((Nat.digits 10 m).map decChar).reverse =
          ((Nat.digits 10 n).map decChar).reverse := by
        have := congrArg String.data h
        simpa [itoa, hm, hn, decDigits_eq_digits] using this
      have hmap : (Nat.digits 10 m).map decChar = (Nat.digits 10 n).map decChar := by
        have := congrArg List.reverse hd
        simpa using this
      have hdig : Nat.digits 10 m = Nat.digits 10 n :=
        map_decChar_inj _ _ (fun x hx => Nat.digits_lt_base (by norm_num) hx)
          (fun x hx => Nat.digits_lt_base (by norm_num) hx) hmap
      exact Nat.digits_inj_iff.mp hdig

/-- The pod name `fmt.Sprintf("%s-%d", step.Name, replica)` (line 82). -/
def podName (stepName : String) (i : Nat) : String :=
  stepName ++ "-" ++ itoa i

theorem podName_inj {stepName : String} {i j : Nat}
    (h : podName stepName i = podName stepName j) : i = j := by
  have hdata : (stepName ++ "-").data ++ (itoa i).data =
      (stepName ++ "-").data ++ (itoa j).data := congrArg String.data h
  have : (itoa i).data = (itoa j).data := List.append_cancel_left hdata
  exact itoa_inj (by cases hi : itoa i; cases hj : itoa j; simp_all)

/-- The metadata of a worker pod that the reconciler inspects: its name and
the `dfv1.KeyReplica` annotation (lines 93, 96, 151). -/
structure PodMeta where
  name : String
  replicaAnn : Nat
  deriving DecidableEq, Repr

/-- Whether a pod with the given name already exists in the cluster. -/
def hasPodNamed (pods : List PodMeta) (n : String) : Bool :=
  pods.any (fun p => p.name = n)

/-- The call `r.Client.Create` with `IgnoreAlreadyExists` (lines 89–135): create the
pod unless one with the same name exists; "already exists" is not an error. -/
def createPod (pods : List PodMeta) (p : PodMeta) : List PodMeta :=
  if hasPodNamed pods p.name then pods else pods ++ [p]

/-- The creation loop `for replica := 0; replica < replicas; replica++`
(lines 81–136): one idempotent create per index. -/
def createAllPods (stepName : String) (r : Nat) (pods : List PodMeta) : List PodMeta :=
  (List.range r).foldl (fun ps i => createPod ps ⟨podName stepName i, i⟩) pods

/-- The deletion branch (lines 150–154): every listed pod whose replica
annotation is `>= replicas` is deleted; `IgnoreNotFound` makes deletion a
pure removal. -/
def deleteExcessPods (r : Nat) (pods : List PodMeta) : List PodMeta :=
  pods.filter (fun p => p.replicaAnn < r)

/-- One reconcile's effect on the pod set: the creation loop followed by
the deletion of out-of-range pods over the freshly listed set. -/
def reconcilePods (stepName : String) (r : Nat) (pods : List PodMeta) : List PodMeta :=
  deleteExcessPods r (createAllPods stepName r pods)

/-- Controller-created pods: each pod's name is derived from its own
replica annotation, and pod names are unique (the API server keys pods by
name). -/
def podsWellFormed (stepName : String) (pods : List PodMeta) : Prop :=
  (∀ p ∈ pods, p.name = podName stepName p.replicaAnn) ∧
    (pods.map PodMeta.name).Nodup

theorem mem_createPod_of_mem {pods : List PodMeta} {p q : PodMeta}
    (h : p ∈ pods) : p ∈ createPod pods q := by
  unfold createPod
  split <;> simp [h]

theorem hasPodNamed_createPod_of {pods : List PodMeta} {q : PodMeta} {n : String}
    (h : hasPodNamed pods n = true) : hasPodNamed (createPod pods q) n = true := by
  unfold createPod
  split
  · exact h
  · unfold hasPodNamed at h ⊢
    simp only [List.any_append, Bool.or_eq_true]
    exact Or.inl h

theorem hasPodNamed_createPod_self (pods : List PodMeta) (q : PodMeta) :
    hasPodNamed (createPod pods q) q.name = true := by
  unfold createPod
  split
  · assumption
  · unfold hasPodNamed
    simp

theorem createAllPods_succ (stepName : String) (r : Nat) (pods : List PodMeta) :
    createAllPods stepName (r + 1) pods =
      createPod (createAllPods stepName r pods) ⟨podName stepName r, r⟩ := by
  unfold createAllPods
  rw [List.range_succ, List.foldl_append]
  rfl

theorem mem_createAllPods_of_mem {stepName : String} {r : Nat}
    {pods : List PodMeta} {p : PodMeta} (h : p ∈ pods) :
    p ∈ createAllPods stepName r pods := by
  induction r with
  | zero => simpa [createAllPods] using h
  | succ n ih => rw [createAllPods_succ]; exact mem_createPod_of_mem ih

theorem hasPodNamed_createAllPods {stepName : String} {r i : Nat}
    (pods : List PodMeta) (hi : i < r) :
    hasPodNamed (createAllPods stepName r pods) (podName stepName i) = true := by
  induction r with
  | zero => omega
  | succ n ih =>
      rw [createAllPods_succ]
      rcases Nat.lt_succ_iff_lt_or_eq.mp hi with h | h
      · exact hasPodNamed_createPod_of (ih h)
      · subst h
        exact hasPodNamed_createPod_self _ _

theorem podsWellFormed_createPod {stepName : String} {pods : List PodMeta} {i : Nat}
    (h : podsWellFormed stepName pods) :
    podsWellFormed stepName (createPod pods ⟨podName stepName i, i⟩) := by
  unfold createPod
  split
  · exact h
  · rename_i hnot
    obtain ⟨hname, hnd⟩ := h
    constructor
    · intro p hp
      rcases List.mem_append.mp hp with h1 | h1
      · exact hname p h1
      · simp only [List.mem_singleton] at h1
        subst h1
        rfl
    · rw [List.map_append]
      have hnot' : ¬(hasPodNamed pods (podName stepName i) = true) := hnot
      refine List.Nodup.append hnd (by simp) ?_
      intro a ha hb
      simp only [List.map_cons, List.map_nil, List.mem_singleton] at hb
      subst hb
      obtain ⟨p, hp, hpn⟩ := List.mem_map.mp ha
      refine hnot' ?_
      unfold hasPodNamed
      simp only [List.any_eq_true, decide_eq_true_eq]
      exact ⟨p, hp, hpn⟩

theorem podsWellFormed_createAllPods {stepName : String} {r : Nat}
    {pods : List PodMeta} (h : podsWellFormed stepName pods) :
    podsWellFormed stepName (createAllPods stepName r pods) := by
  induction r with
  | zero => simpa [createAllPods] using h
  | succ n ih => rw [createAllPods_succ]; exact podsWellFormed_createPod ih

theorem podsWellFormed_filter {stepName : String} {pods : List PodMeta}
    (h : podsWellFormed stepName pods) (q : PodMeta → Bool) :
    podsWellFormed stepName (pods.filter q) := by
  obtain ⟨hname, hnd⟩ := h
  exact ⟨fun p hp => hname p (List.mem_of_mem_filter hp),
    hnd.sublist ((List.filter_sublist pods).map PodMeta.name)⟩

theorem mem_reconcilePods {stepName : String} {r i : Nat} {pods : List PodMeta}
    (hwf : podsWellFormed stepName pods) (hi : i < r) :
    (⟨podName stepName i, i⟩ : PodMeta) ∈ reconcilePods stepName r pods := by
  have hwfW := @podsWellFormed_createAllPods stepName r pods hwf
  have hname := @hasPodNamed_createAllPods stepName r i pods hi
  unfold hasPodNamed at hname
  simp only [List.any_eq_true, decide_eq_true_eq] at hname
  obtain ⟨p, hp, hpn⟩ := hname
  have hann : p.replicaAnn = i := podName_inj ((hwfW.1 p hp).symm.trans hpn)
  have hpe : p = ⟨podName stepName i, i⟩ := by
    cases p
    simp_all
  unfold reconcilePods deleteExcessPods
  rw [List.mem_filter]
  exact ⟨hpe ▸ hp, by simpa using hi⟩

theorem reconcilePods_ann_lt {stepName : String} {r : Nat} {pods : List PodMeta} :
    ∀ p ∈ reconcilePods stepName r pods, p.replicaAnn < r := by
  intro p hp
  unfold reconcilePods deleteExcessPods at hp
  simpa using (List.mem_filter.mp hp).2

theorem mem_reconcilePods_of_inrange {stepName : String} {r : Nat}
    {pods : List PodMeta} {p : PodMeta} (hp : p ∈ pods) (hlt : p.replicaAnn < r) :
    p ∈ reconcilePods stepName r pods := by
  unfold reconcilePods deleteExcessPods
  rw [List.mem_filter]
  exact ⟨mem_createAllPods_of_mem hp, by simpa using hlt⟩

theorem reconcilePods_wellFormed {stepName : String} {r : Nat}
    {pods : List PodMeta} (hwf : podsWellFormed stepName pods) :
    podsWellFormed stepName (reconcilePods stepName r pods) :=
  podsWellFormed_filter (podsWellFormed_createAllPods hwf) _

theorem reconcilePods_length {stepName : String} {r : Nat} {pods : List PodMeta}
    (hwf : podsWellFormed stepName pods) :
    (reconcilePods stepName r pods).length = r := by
  set R := reconcilePods stepName r pods with hR
  have hwfR : podsWellFormed stepName R := reconcilePods_wellFormed hwf
  have hmapeq : R.map PodMeta.name =
      (R.map PodMeta.replicaAnn).map (podName stepName) := by
    rw [List.map_map]
    exact List.map_congr_left fun p hp => hwfR.1 p hp
  have hndann : (R.map PodMeta.replicaAnn).Nodup := by
    have := hwfR.2
    rw [hmapeq] at this
    exact List.Nodup.of_map _ this
  have hperm : List.Perm (R.map PodMeta.replicaAnn) (List.range r) := by
    rw [List.perm_ext_iff_of_nodup hndann (List.nodup_range r)]
    intro a
    constructor
    · intro ha
      obtain ⟨p, hp, hpa⟩ := List.mem_map.mp ha
      rw [List.mem_range, ← hpa]
      exact reconcilePods_ann_lt p hp
    · intro ha
      rw [List.mem_range] at ha
      exact List.mem_map.mpr ⟨⟨podName stepName a, a⟩, mem_reconcilePods hwf ha, rfl⟩
  have := hperm.length_eq
  simpa using this

theorem createAllPods_of_present {stepName : String} {r : Nat}
    {pods : List PodMeta}
    (h : ∀ i < r, hasPodNamed pods (podName stepName i) = true) :
    createAllPods stepName r pods = pods := by
  induction r with
  | zero => rfl
  | succ n ih =>
      rw [createAllPods_succ, ih (fun i hi => h i (Nat.lt_succ_of_lt hi))]
      unfold createPod
      rw [if_pos (h n (Nat.lt_succ_self n))]

theorem reconcilePods_idem {stepName : String} {r : Nat} {pods : List PodMeta}
    (hwf : podsWellFormed stepName pods) :
    reconcilePods stepName r (reconcilePods stepName r pods) =
      reconcilePods stepName r pods := by
  set R := reconcilePods stepName r pods with hR
  have hcreate : createAllPods stepName r R = R := by
    apply createAllPods_of_present
    intro i hi
    unfold hasPodNamed
    simp only [List.any_eq_true, decide_eq_true_eq]
    exact ⟨⟨podName stepName i, i⟩, mem_reconcilePods hwf hi, rfl⟩
  show deleteExcessPods r (createAllPods stepName r R) = R
  rw [hcreate]
  unfold deleteExcessPods
  rw [List.filter_eq_self.mpr]
  intro p hp
  simpa using reconcilePods_ann_lt p hp

/-! ### Anti-flap scaling (lines 66–73 and 146–148) -/

/-- The scaling fields of the stored status that one reconcile reads and
writes: `status.replicas` and `status.lastScaleTime` (seconds). -/
structure ScaleState where
  replicas : Nat
  lastScaleTime : Option Nat
  deriving DecidableEq, Repr

/-- Lines 70–73: `replicas := lastReplicas; if LastScaleTime == nil ||
time.Since(LastScaleTime) > time.Minute { replicas = newReplicas }`. -/
def effectiveReplicas (st : ScaleState) (now newReplicas : Nat) : Nat :=
  match st.lastScaleTime with
  | none => newReplicas
  | some t => if now - t > 60 then newReplicas else st.replicas

/-- The stored scaling fields after one reconcile: lines 144–148 put the
effective count into the candidate status and set `lastScaleTime` to `now`
exactly when the count changed; an unchanged count leaves the candidate's
`lastScaleTime` empty, so the merge patch keeps the stored value. -/
def reconcileScale (st : ScaleState) (now newReplicas : Nat) : ScaleState :=
  let replicas := effectiveReplicas st now newReplicas
  { replicas := replicas,
    lastScaleTime := if st.replicas ≠ replicas then some now else st.lastScaleTime }

/-- A sequence of reconciles, each with its wall-clock time and the freshly
computed desired count. -/
def runScale (st : ScaleState) : List (Nat × Nat) → ScaleState
  | [] => st
  | (now, r) :: rest => runScale (reconcileScale st now r) rest

theorem reconcileScale_lastScaleTime_of_change {st : ScaleState} {now r : Nat}
    (h : (reconcileScale st now r).replicas ≠ st.replicas) :
    (reconcileScale st now r).lastScaleTime = some now := by
  have h' : effectiveReplicas st now r ≠ st.replicas := h
  show (if st.replicas ≠ effectiveReplicas st now r then some now
    else st.lastScaleTime) = some now
  rw [if_pos (Ne.symm h')]

theorem reconcileScale_change_requires_staleness {st : ScaleState} {now r u : Nat}
    (hu : st.lastScaleTime = some u)
    (h : (reconcileScale st now r).replicas ≠ st.replicas) : now - u > 60 := by
  unfold reconcileScale effectiveReplicas at h
  rw [hu] at h
  by_cases hlt : now - u > 60
  · exact hlt
  · simp [hlt] at h

theorem runScale_lastScaleTime_source {st : ScaleState} {u : Nat}
    (L : List (Nat × Nat)) (hu : st.lastScaleTime = some u) :
    ∃ w, (runScale st L).lastScaleTime = some w ∧
      (w = u ∨ w ∈ L.map Prod.fst) := by
  induction L generalizing st u with
  | nil => exact ⟨u, hu, Or.inl rfl⟩
  | cons hd tl ih =>
      obtain ⟨t, r⟩ := hd
      by_cases hc : st.replicas ≠ effectiveReplicas st t r
      · have h1 : (reconcileScale st t r).lastScaleTime = some t := by
          unfold reconcileScale
          simp [hc]
        obtain ⟨w, hw, hsrc⟩ := ih h1
        refine ⟨w, hw, ?_⟩
        rcases hsrc with h | h
        · exact Or.inr (by simp [h])
        · exact Or.inr (by simp [h])
      · have h1 : (reconcileScale st t r).lastScaleTime = some u := by
          unfold reconcileScale
          simp only [hc, if_false]
          exact hu
        obtain ⟨w, hw, hsrc⟩ := ih h1
        refine ⟨w, hw, ?_⟩
        rcases hsrc with h | h
        · exact Or.inl h
        · exact Or.inr (by simp [h])

/-! ### Candidate status, phase aggregation (lines 144–161) -/

/-- What the reconciler reads from one listed pod: the replica-index
annotation, the phase inferred for it (`inferPhase`), and
`pod.Status.Message`. -/
structure PodView where
  replicaAnn : Nat
  phase : StepPhase
  message : String
  deriving DecidableEq, Repr

/-- Lines 144–148: the candidate status before the pod loop. -/
def initialStatus (lastReplicas replicas now : Nat) : StepStatus :=
  { phase := .unknown, message := "", replicas := replicas,
    lastScaleTime := if lastReplicas ≠ replicas then some now else none,
    sourceStatuses := none, sinkStatues := none }

/-- One iteration of the pod loop, status part (lines 150–161): an
out-of-range pod is deleted and contributes nothing; a retained pod's
phase is folded in with `MinStepPhase`, and its message is surfaced when
the folded phase is completed and the message is non-empty. -/
def stepAggregate (replicas : Nat) (st : StepStatus) (pod : PodView) : StepStatus :=
  if pod.replicaAnn ≥ replicas then st
  else
    let ph := MinStepPhase st.phase pod.phase
    { st with
      phase := ph
      message := if ph.Completed ∧ pod.message ≠ "" then pod.message else st.message }

/-- The candidate status a reconcile builds (lines 144–161). -/
def candidateStatus (lastReplicas replicas now : Nat) (pods : List PodView) : StepStatus :=
  pods.foldl (stepAggregate replicas) (initialStatus lastReplicas replicas now)

/-- A pod retained by the reconcile (annotation inside the desired range). -/
def inRange (replicas : Nat) (pod : PodView) : Bool :=
  pod.replicaAnn < replicas

/-- Fold of `MinStepPhase` over a list of phases. -/
def foldPhase (init : StepPhase) (l : List StepPhase) : StepPhase :=
  l.foldl MinStepPhase init

theorem minStepPhase_cases (a b : StepPhase) :
    MinStepPhase a b = a ∨ MinStepPhase a b = b := by
  unfold MinStepPhase
  split <;> simp

theorem minStepPhase_rank_le_left (a b : StepPhase) :
    (MinStepPhase a b).rank ≤ a.rank := by
  unfold MinStepPhase
  split <;> omega

theorem minStepPhase_rank_le_right (a b : StepPhase) :
    (MinStepPhase a b).rank ≤ b.rank := by
  unfold MinStepPhase
  split <;> omega

theorem foldPhase_rank_le (l : List StepPhase) (init : StepPhase) :
    (foldPhase init l).rank ≤ init.rank ∧
      ∀ p ∈ l, (foldPhase init l).rank ≤ p.rank := by
  induction l generalizing init with
  | nil => simp [foldPhase]
  | cons hd tl ih =>
      have h1 := ih (MinStepPhase init hd)
      have hle : foldPhase init (hd :: tl) = foldPhase (MinStepPhase init hd) tl := rfl
      refine ⟨?_, ?_⟩
      · exact hle ▸ le_trans h1.1 (minStepPhase_rank_le_left init hd)
      · intro p hp
        rcases List.mem_cons.mp hp with h | h
        · subst h
          exact hle ▸ le_trans h1.1 (minStepPhase_rank_le_right init p)
        · exact hle ▸ h1.2 p h

theorem foldPhase_attained (l : List StepPhase) (init : StepPhase) :
    foldPhase init l = init ∨ foldPhase init l ∈ l := by
  induction l generalizing init with
  | nil => simp [foldPhase]
  | cons hd tl ih =>
      rcases ih (MinStepPhase init hd) with h | h
      · rcases minStepPhase_cases init hd with hc | hc
        · left
          show foldPhase (MinStepPhase init hd) tl = init
          rw [h, hc]
        · right
          have : foldPhase init (hd :: tl) = hd := by
            show foldPhase (MinStepPhase init hd) tl = hd
            rw [h, hc]
          simp [this]
      · right
        right
        exact h

theorem candidate_phase_eq_foldPhase (replicas : Nat) (st : StepStatus)
    (pods : List PodView) :
    (pods.foldl (stepAggregate replicas) st).phase =
      foldPhase st.phase ((pods.filter (inRange replicas)).map PodView.phase) := by
  induction pods generalizing st with
  | nil => simp [foldPhase]
  | cons hd tl ih =>
      by_cases h : hd.replicaAnn ≥ replicas
      · have hfilter : inRange replicas hd = false := by
          unfold inRange
          simpa using h
        simp only [List.foldl_cons, List.filter_cons, hfilter, if_neg]
        rw [show stepAggregate replicas st hd = st by unfold stepAggregate; simp [h]]
        simpa using ih st
      · have hfilter : inRange replicas hd = true := by
          unfold inRange
          simpa using Nat.lt_of_not_le h
        simp only [List.foldl_cons, List.filter_cons, hfilter, if_pos, List.map_cons]
        have hphase : (stepAggregate replicas st hd).phase = MinStepPhase st.phase hd.phase := by
          unfold stepAggregate
          simp [h]
        rw [ih (stepAggregate replicas st hd), hphase]
        rfl

theorem stepAggregate_frame (replicas : Nat) (st : StepStatus) (pod : PodView) :
    (stepAggregate replicas st pod).replicas = st.replicas ∧
      (stepAggregate replicas st pod).lastScaleTime = st.lastScaleTime ∧
      (stepAggregate replicas st pod).sourceStatuses = st.sourceStatuses ∧
      (stepAggregate replicas st pod).sinkStatues = st.sinkStatues := by
  unfold stepAggregate
  split <;> simp

theorem foldl_stepAggregate_frame (replicas : Nat) (st : StepStatus)
    (pods : List PodView) :
    (pods.foldl (stepAggregate replicas) st).replicas = st.replicas ∧
      (pods.foldl (stepAggregate replicas) st).lastScaleTime = st.lastScaleTime ∧
      (pods.foldl (stepAggregate replicas) st).sourceStatuses = st.sourceStatuses ∧
      (pods.foldl (stepAggregate replicas) st).sinkStatues = st.sinkStatues := by
  induction pods generalizing st with
  | nil => simp
  | cons hd tl ih =>
      have h1 := stepAggregate_frame replicas st hd
      have h2 := ih (stepAggregate replicas st hd)
      simp only [List.foldl_cons]
      refine ⟨?_, ?_, ?_, ?_⟩
      · rw [h2.1, h1.1]
      · rw [h2.2.1, h1.2.1]
      · rw [h2.2.2.1, h1.2.2.1]
      · rw [h2.2.2.2, h1.2.2.2]

/-! ### Status merge patch (lines 195–202) -/

/-- Modelled from the spec: a JSON merge patch against the status
sub-resource "containing only changed top-level status fields (`phase`,
`message`, `replicas`, `lastScaleTime`, `sourceStatuses`,
`sinkStatuses`)"; a field absent from the patch (`none`) leaves the
stored value untouched. -/
structure StatusMergePatch where
  phase : Option StepPhase
  message : Option String
  replicas : Option Nat
  lastScaleTime : Option Nat
  sourceStatuses : Option SourceStatuses
  sinkStatues : Option SourceStatuses
  deriving DecidableEq, Repr

/-- Modelled from the spec: the serialization `dfv1.Json(&dfv1.Step{Status:
newStatus})` of the controller's candidate status.  Go `omitempty` drops an
empty message, a nil `lastScaleTime` and nil metric maps, so those arrive
as absent fields. -/
def statusToPatch (s : StepStatus) : StatusMergePatch :=
  { phase := some s.phase
    message := if s.message = "" then none else some s.message
    replicas := some s.replicas
    lastScaleTime := s.lastScaleTime
    sourceStatuses := s.sourceStatuses
    sinkStatues := s.sinkStatues }

/-- Modelled from the spec: applying a JSON merge patch to the stored
status — present fields replace, absent fields are kept. -/
def applyStatusPatch (stored : StepStatus) (p : StatusMergePatch) : StepStatus :=
  { phase := p.phase.getD stored.phase
    message := p.message.getD stored.message
    replicas := p.replicas.getD stored.replicas
    lastScaleTime := match p.lastScaleTime with
      | none => stored.lastScaleTime
      | some t => some t
    sourceStatuses := match p.sourceStatuses with
      | none => stored.sourceStatuses
      | some m => some m
    sinkStatues := match p.sinkStatues with
      | none => stored.sinkStatues
      | some m => some m }

/-- Errors the patch API can return, as the controller distinguishes them
(`IgnoreConflict`, `apierr.IsNotFound`). -/
inductive ApiError where
  | conflict
  | notFound
  | other
  deriving DecidableEq, Repr

/-- Lines 195–202: `if !reflect.DeepEqual(step.Status, newStatus)` issue
the merge patch, with `IgnoreConflict` on its result.  The outcome records
whether a patch call was made and which error the reconcile returns.  When
no call is made the (hypothetical) API result is irrelevant and ignored. -/
def statusPatchDecision (observed candidate : StepStatus)
    (patchResult : Option ApiError) : Bool × Option ApiError :=
  if observed = candidate then (false, none)
  else
    (true, match patchResult with
           | some ApiError.conflict => none
           | res => res)

/-! ### Sidecar status merge (`patchStepStatus`, sidecar source lines 155–219) -/

/-- Go map read `s.Metrics[r]` with a possibly-nil map: an absent key
yields the zero `Metrics` value, which the assignment then stores. -/
def metricsRead (m : Option MetricsMap) (k : Nat) : Metrics :=
  match m with
  | none => Metrics.zero
  | some mm => (alookup mm k).getD Metrics.zero

/-- Lines 198–205 (and their sink copy 206–213), body of one loop
iteration: ensure `v[name].Metrics` is a non-nil map, then write this
replica's entry `v[name].Metrics[r] = s.Metrics[r]`. -/
def reapplyOne (r : Nat) (v : SourceStatuses) (name : Nat) (s : SourceStatus) :
    SourceStatuses :=
  let cur := (alookup v name).getD ⟨none⟩
  let curM := match cur.metrics with
    | none => []
    | some mm => mm
  ainsert v name ⟨some (ainsert curM r (metricsRead s.metrics r))⟩

/-- The whole re-apply loop over the local status map `loc`. -/
def reapplyOwn (r : Nat) (loc : SourceStatuses) (v : SourceStatuses) :
    SourceStatuses :=
  loc.foldl (fun acc kv => reapplyOne r acc kv.1 kv.2) v

/-- The metric entry stored under source `name` and replica key `k`. -/
def statusEntry (ss : SourceStatuses) (name k : Nat) : Option Metrics :=
  match alookup ss name with
  | none => none
  | some s =>
      match s.metrics with
      | none => none
      | some mm => alookup mm k

theorem statusEntry_reapplyOne_other_key (r : Nat) (v : SourceStatuses)
    (name : Nat) (s : SourceStatus) (name' k : Nat) (hk : k ≠ r) :
    statusEntry (reapplyOne r v name s) name' k = statusEntry v name' k := by
  unfold reapplyOne statusEntry
  by_cases hn : name' = name
  · subst hn
    rw [alookup_ainsert_self]
    cases hv : alookup v name' with
    | none => simp [hv, alookup_ainsert_ne _ _ _ _ hk, alookup, Ne.symm hk]
    | some cur =>
        cases hm : cur.metrics with
        | none => simp [hv, hm, alookup_ainsert_ne _ _ _ _ hk, alookup, Ne.symm hk]
        | some mm => simp [hv, hm, alookup_ainsert_ne _ _ _ _ hk]
  · rw [alookup_ainsert_ne _ _ _ _ hn]

theorem statusEntry_reapplyOne_self (r : Nat) (v : SourceStatuses)
    (name : Nat) (s : SourceStatus) :
    statusEntry (reapplyOne r v name s) name r =
      some (metricsRead s.metrics r) := by
  unfold reapplyOne statusEntry
  rw [alookup_ainsert_self]
  simp [alookup_ainsert_self]

theorem statusEntry_reapplyOne_other_name (r : Nat) (v : SourceStatuses)
    (name : Nat) (s : SourceStatus) (name' k : Nat) (hn : name' ≠ name) :
    statusEntry (reapplyOne r v name s) name' k = statusEntry v name' k := by
  unfold reapplyOne statusEntry
  rw [alookup_ainsert_ne _ _ _ _ hn]

theorem statusEntry_reapplyOwn_other_key (r : Nat) (loc : SourceStatuses)
    (v : SourceStatuses) (name k : Nat) (hk : k ≠ r) :
    statusEntry (reapplyOwn r loc v) name k = statusEntry v name k := by
  induction loc generalizing v with
  | nil => rfl
  | cons hd tl ih =>
      show statusEntry (reapplyOwn r tl (reapplyOne r v hd.1 hd.2)) name k = _
      rw [ih (reapplyOne r v hd.1 hd.2),
        statusEntry_reapplyOne_other_key r v hd.1 hd.2 name k hk]

theorem statusEntry_reapplyOwn_absent (r : Nat) (loc : SourceStatuses)
    (v : SourceStatuses) (name k : Nat)
    (h : name ∉ loc.map Prod.fst) :
    statusEntry (reapplyOwn r loc v) name k = statusEntry v name k := by
  induction loc generalizing v with
  | nil => rfl
  | cons hd tl ih =>
      simp only [List.map_cons, List.mem_cons, not_or] at h
      show statusEntry (reapplyOwn r tl (reapplyOne r v hd.1 hd.2)) name k = _
      rw [ih (reapplyOne r v hd.1 hd.2) h.2,
        statusEntry_reapplyOne_other_name r v hd.1 hd.2 name k h.1]

theorem statusEntry_reapplyOwn_self (r : Nat) (loc : SourceStatuses)
    (v : SourceStatuses) (name : Nat) (s : SourceStatus)
    (hnd : (loc.map Prod.fst).Nodup) (hmem : (name, s) ∈ loc) :
    statusEntry (reapplyOwn r loc v) name r =
      some (metricsRead s.metrics r) := by
  induction loc generalizing v with
  | nil => cases hmem
  | cons hd tl ih =>
      simp only [List.map_cons, List.nodup_cons] at hnd
      rcases List.mem_cons.mp hmem with h | h
      · subst h
        show statusEntry (reapplyOwn r tl (reapplyOne r v name s)) name r = _
        rw [statusEntry_reapplyOwn_absent r tl _ name r hnd.1,
          statusEntry_reapplyOne_self]
      · exact ih (reapplyOne r v hd.1 hd.2) hnd.2 h

/-- The two per-replica metric maps of a status, after the sidecar's
nil-map normalization. -/
structure StatusMaps where
  sourceStatuses : SourceStatuses
  sinkStatues : SourceStatuses
  deriving DecidableEq, Repr

/-- Lines 188–215: re-apply this replica's own metric entries into every
`sourceStatuses` and `sinkStatuses` map of the freshly fetched state. -/
def reapplyReplica (r : Nat) (loc v : StatusMaps) : StatusMaps :=
  { sourceStatuses := reapplyOwn r loc.sourceStatuses v.sourceStatuses
    sinkStatues := reapplyOwn r loc.sinkStatues v.sinkStatues }

/-! ### Sidecar merge cycle (`patchStepStatus`) -/

/-- The in-memory globals of the sidecar process that the merge cycle
touches: `step` (the live status) and `lastStep` (the last server-observed
baseline). -/
structure SidecarState where
  step : StepStatus
  lastStep : StepStatus
  deriving DecidableEq, Repr

/-- A registered pre-patch hook: it may update the in-memory state and may
report an error; the error is logged only.  Go hooks mutate globals before
returning, so the state update happens whether or not an error is
reported. -/
structure PrePatchHook where
  name : String
  run : SidecarState → SidecarState × Bool

/-- Observable events of one merge cycle, in order of occurrence. -/
inductive SidecarEvent where
  | hookRan (name : String) (failed : Bool)
  | patchSkipped
  | patchIssued
  | patchNotFound
  | patchFailed
  | refreshed
  deriving DecidableEq, Repr

/-- The name of a hook-execution event, `none` for the patch-phase
events. -/
def SidecarEvent.hookName : SidecarEvent → Option String
  | .hookRan n _ => some n
  | _ => none

/-- Lines 159–165: run every registered pre-patch hook in registration
order; a failure is logged (recorded in the event) and does not stop the
remaining hooks. -/
def runPrePatchHooks (hooks : List PrePatchHook) (st : SidecarState) :
    SidecarState × List SidecarEvent :=
  hooks.foldl
    (fun acc h =>
      let res := h.run acc.1
      (res.1, acc.2 ++ [SidecarEvent.hookRan h.name res.2]))
    (st, [])

/-- What the status-patch API call can produce: the server's resulting
step object on success, or a failure. -/
inductive PatchOutcome where
  | ok (fetched : StepStatus)
  | notFound
  | apiError

/-- Lines 58–63 and 189–194: replace nil metric maps by empty ones. -/
def ensureMaps (s : StepStatus) : StepStatus :=
  { s with
    sourceStatuses := some (s.sourceStatuses.getD [])
    sinkStatues := some (s.sinkStatues.getD []) }

/-- Lines 183–215, success path: store the fetched object as the new
baseline (`lastStep`, deep-copied before mutation), then copy this
replica's own metric entries back into the fetched state and adopt it as
`step`. -/
def adoptFetched (replica : Nat) (st : SidecarState) (fetched : StepStatus) :
    SidecarState :=
  let v := ensureMaps fetched
  let merged := reapplyReplica replica
    ⟨st.step.sourceStatuses.getD [], st.step.sinkStatues.getD []⟩
    ⟨v.sourceStatuses.getD [], v.sinkStatues.getD []⟩
  { step := { v with
      sourceStatuses := some merged.sourceStatuses
      sinkStatues := some merged.sinkStatues }
    lastStep := fetched }

/-- The function `patchStepStatus` (lines 155–219): run the pre-patch hooks, compare the
in-memory status against the last observed baseline, patch when they
differ, and on success refresh from the server's object.  Every failure is
logged (recorded as an event); the function itself cannot fail. -/
def patchStepStatus (replica : Nat) (hooks : List PrePatchHook)
    (patchApi : StepStatus → PatchOutcome) (st : SidecarState) :
    SidecarState × List SidecarEvent :=
  let hr := runPrePatchHooks hooks st
  if hr.1.lastStep = hr.1.step then (hr.1, hr.2 ++ [SidecarEvent.patchSkipped])
  else
    match patchApi hr.1.step with
    | .notFound => (hr.1, hr.2 ++ [SidecarEvent.patchIssued, SidecarEvent.patchNotFound])
    | .apiError => (hr.1, hr.2 ++ [SidecarEvent.patchIssued, SidecarEvent.patchFailed])
    | .ok fetched =>
        (adoptFetched replica hr.1 fetched,
          hr.2 ++ [SidecarEvent.patchIssued, SidecarEvent.refreshed])

theorem runPrePatchHooks_names (hooks : List PrePatchHook) (st : SidecarState) :
    (runPrePatchHooks hooks st).2.filterMap SidecarEvent.hookName =
      hooks.map PrePatchHook.name := by
  suffices h : ∀ (st : SidecarState) (acc : List SidecarEvent),
      (hooks.foldl
        (fun acc h =>
          let res := h.run acc.1
          (res.1, acc.2 ++ [SidecarEvent.hookRan h.name res.2]))
        (st, acc)).2.filterMap SidecarEvent.hookName =
      acc.filterMap SidecarEvent.hookName ++ hooks.map PrePatchHook.name by
    simpa using h st []
  induction hooks with
  | nil => intro st acc; simp
  | cons hd tl ih =>
      intro st acc
      simp only [List.foldl_cons, List.map_cons]
      rw [ih]
      simp [SidecarEvent.hookName]

/-! ### Remote terminator (lines 163–191) -/

/-- The state of one entry of `pod.Status.ContainerStatuses` as the
terminator inspects it: the container name, whether `State.Terminated` is
set, and whether `State.Running` is set. -/
structure ContainerStatus where
  name : String
  terminated : Bool
  running : Bool
  deriving DecidableEq, Repr

/-- The outcome of one remote-exec attempt, as the code distinguishes it:
`NewSPDYExecutor` may fail before any request is issued; `exec.Stream` may
fail with "container not found" (swallowed by `IgnoreContainerNotFound`)
or with any other error. -/
inductive ExecOutcome where
  | streamOk
  | spdyError
  | containerNotFound
  | streamError
  deriving DecidableEq, Repr

/-- The reconcile errors the terminator can return ("failed to exec",
"failed to stream"). -/
inductive TermError where
  | execFailed
  | streamFailed
  deriving DecidableEq, Repr

/-- Lines 163–191 for one retained pod: walk the container statuses and,
for each entry named "main" whose state is terminated, exec the sidecar's
kill entrypoint.  Returns the names of the containers for which a kill
request ran, or the first propagated error.  `outcome` is the result of
the exec attempt (the same pod and sidecar are targeted by every attempt
of this loop). -/
def runTerminator (outcome : ExecOutcome) : List ContainerStatus →
    Except TermError (List String)
  | [] => .ok []
  | s :: rest =>
      if s.name = "main" ∧ s.terminated = true then
        if outcome = .spdyError then .error .execFailed
        else if outcome = .streamError then .error .streamFailed
        else (runTerminator outcome rest).map (fun xs => s.name :: xs)
      else runTerminator outcome rest

theorem runTerminator_no_main (outcome : ExecOutcome)
    (l : List ContainerStatus)
    (h : ∀ s ∈ l, ¬(s.name = "main" ∧ s.terminated = true)) :
    runTerminator outcome l = .ok [] := by
  induction l with
  | nil => rfl
  | cons hd tl ih =>
      unfold runTerminator
      rw [if_neg (h hd (by simp))]
      exact ih fun s hs => h s (by simp [hs])

/-! ### The surfaced status message (lines 158–161) -/

/-- The running aggregate phase after the first `k` pods of the loop: the
`MinStepPhase` fold over the retained pods among them, from `Unknown`. -/
def prefixPhase (replicas : Nat) (pods : List PodView) (k : Nat) : StepPhase :=
  foldPhase .unknown (((pods.take k).filter (inRange replicas)).map PodView.phase)

/-- Whether the pod at position `k` sets the status message: it is
retained, the running aggregate phase at its iteration is completed, and
its message is non-empty (line 159). -/
def qualifiesAt (replicas : Nat) (pods : List PodView) (k : Nat) (p : PodView) : Bool :=
  inRange replicas p && (prefixPhase replicas pods (k + 1)).Completed &&
    (p.message != "")

/-- The messages written to `newStatus.Message` during the loop, in
order; the final message is the last of these. -/
def qualifyingMsgs (replicas : Nat) (pods : List PodView) : List String :=
  pods.enum.filterMap (fun kp =>
    if qualifiesAt replicas pods kp.1 kp.2 then some kp.2.message else none)

theorem qualifiesAt_append {replicas : Nat} {pods : List PodView}
    (p : PodView) {k : Nat} (q : PodView) (hk : k < pods.length) :
    qualifiesAt replicas (pods ++ [p]) k q = qualifiesAt replicas pods k q := by
  unfold qualifiesAt prefixPhase
  rw [List.take_append_of_le_length (by omega)]

theorem qualifyingMsgs_append (replicas : Nat) (pods : List PodView)
    (p : PodView) :
    qualifyingMsgs replicas (pods ++ [p]) =
      qualifyingMsgs replicas pods ++
        (if qualifiesAt replicas (pods ++ [p]) pods.length p
         then [p.message] else []) := by
  unfold qualifyingMsgs
  rw [List.enum_append, List.filterMap_append]
  congr 1
  · apply List.filterMap_congr
    intro kp hkp
    have hlt : kp.1 < pods.length := by
      have h1 := List.mem_enum_iff_getElem?.mp hkp
      exact (List.getElem?_eq_some.mp h1).1
    rw [qualifiesAt_append p kp.2 hlt]
  · show List.filterMap _ [(pods.length, p)] = _
    by_cases hq : qualifiesAt replicas (pods ++ [p]) pods.length p = true
    · simp [List.filterMap, hq]
    · simp only [Bool.not_eq_true] at hq
      simp [List.filterMap, hq]

theorem prefixPhase_full (replicas : Nat) (pods : List PodView) (p : PodView) :
    prefixPhase replicas (pods ++ [p]) (pods.length + 1) =
      (if inRange replicas p
       then MinStepPhase (prefixPhase replicas pods pods.length) p.phase
       else prefixPhase replicas pods pods.length) := by
  unfold prefixPhase
  rw [List.take_of_length_le (by simp), List.take_of_length_le (by simp),
    List.filter_append]
  by_cases hp : inRange replicas p = true
  · rw [if_pos hp]
    simp only [List.filter_cons, hp, if_pos, List.filter_nil, List.map_append,
      List.map_cons, List.map_nil]
    unfold foldPhase
    rw [List.foldl_append]
    rfl
  · simp only [Bool.not_eq_true] at hp
    rw [if_neg (by simp [hp])]
    simp [List.filter_cons, hp]

theorem candidate_phase_prefix (lastReplicas replicas now : Nat)
    (pods : List PodView) :
    (candidateStatus lastReplicas replicas now pods).phase =
      prefixPhase replicas pods pods.length := by
  unfold candidateStatus prefixPhase
  rw [candidate_phase_eq_foldPhase, List.take_of_length_le (le_refl _)]
  rfl

theorem candidate_message_spec (lastReplicas replicas now : Nat)
    (pods : List PodView) :
    (candidateStatus lastReplicas replicas now pods).message =
      ((qualifyingMsgs replicas pods).getLast?).getD "" := by
  induction pods using List.reverseRecOn with
  | nil => rfl
  | append_singleton pods p ih =>
      have hfold : candidateStatus lastReplicas replicas now (pods ++ [p]) =
          stepAggregate replicas (candidateStatus lastReplicas replicas now pods) p := by
        unfold candidateStatus
        rw [List.foldl_append]
        rfl
      rw [hfold, qualifyingMsgs_append]
      by_cases hp : inRange replicas p = true
      · have hguard : ¬(p.replicaAnn ≥ replicas) := by
          unfold inRange at hp
          simpa using hp
        have hph : MinStepPhase (candidateStatus lastReplicas replicas now pods).phase
            p.phase = prefixPhase replicas (pods ++ [p]) (pods.length + 1) := by
          rw [prefixPhase_full, if_pos hp, candidate_phase_prefix]
        by_cases hc : ((prefixPhase replicas (pods ++ [p]) (pods.length + 1)).Completed
            ∧ p.message ≠ "")
        · have hq : qualifiesAt replicas (pods ++ [p]) pods.length p = true := by
            unfold qualifiesAt
            simp [hp, hc.1, bne_iff_ne, hc.2]
          rw [if_pos hq]
          show (stepAggregate replicas _ p).message = _
          unfold stepAggregate
          rw [if_neg hguard]
          simp only [hph, if_pos hc]
          simp
        · have hq : ¬(qualifiesAt replicas (pods ++ [p]) pods.length p = true) := by
            unfold qualifiesAt
            simp only [Bool.and_eq_true, bne_iff_ne]
            rintro ⟨⟨-, hcomp⟩, hmsg⟩
            exact hc ⟨hcomp, hmsg⟩
          rw [if_neg hq]
          show (stepAggregate replicas _ p).message = _
          unfold stepAggregate
          rw [if_neg hguard]
          simp only [hph, if_neg hc]
          simpa using ih
      · have hguard : p.replicaAnn ≥ replicas := by
          unfold inRange at hp
          simpa using hp
        have hq : ¬(qualifiesAt replicas (pods ++ [p]) pods.length p = true) := by
          unfold qualifiesAt
          simp [hp]
        rw [if_neg hq]
        show (stepAggregate replicas _ p).message = _
        unfold stepAggregate
        rw [if_pos hguard]
        simpa using ih

/-! ### Claim theorems -/

/-- C2: for every `pending ≥ 0` and every policy with `ratio > 0`, the
desired replica count equals `ceil(pending/ratio)` clamped to `[min, max]`
(clamped only below when `max` is undefined); and when `ratio` is
undefined the desired count equals `min` for every `pending`.  The raw
value `c` is characterized as the ceiling: `pending ≤ c * r < pending + r`. -/
theorem scaling_calculator_correct (p : ReplicasPolicy) (pending : Nat) :
    (p.ratio = none → p.Calculate pending = p.min) ∧
    (∀ r, p.ratio = some r → 0 < r →
      ∃ c, pending ≤ c * r ∧ c * r < pending + r ∧
        p.Calculate pending =
          (match p.max with
           | none => Nat.max c p.min
           | some hi => Nat.min (Nat.max c p.min) hi)) := by
  refine ⟨calculate_ratio_none p pending, ?_⟩
  intro r hr hpos
  obtain ⟨h1, h2⟩ := calculate_raw_is_ceil pending r hpos
  refine ⟨(pending + r - 1) / r, h1, h2, ?_⟩
  unfold ReplicasPolicy.Calculate
  rw [hr]

/-- Witness for C2: policy `{min:1, max:5, ratio:1000}` with
`pending = 2500` (the spec's scenario, yielding 3). -/
theorem scaling_calculator_correct_witness :
    ∃ c, 2500 ≤ c * 1000 ∧ c * 1000 < 2500 + 1000 ∧
      (⟨1, some 5, some 1000⟩ : ReplicasPolicy).Calculate 2500 =
        Nat.min (Nat.max c 1) 5 :=
  (scaling_calculator_correct ⟨1, some 5, some 1000⟩ 2500).2 1000 rfl
    (by decide)

/-- C3: the recorded replica count changes at most once per 60-second
window.  (1) When `now - lastScaleTime < 60 s` the reconcile keeps the
previous count. (2) The count changes only when `lastScaleTime` is unset
or at least a minute old. (3) Along any sequence of reconciles whose
intermediate times are not before the first change, two changes are more
than 60 seconds apart. -/
theorem anti_flap_window :
    (∀ (st : ScaleState) (now newReplicas u : Nat), st.lastScaleTime = some u →
      now - u < 60 → (reconcileScale st now newReplicas).replicas = st.replicas) ∧
    (∀ (st : ScaleState) (now newReplicas u : Nat), st.lastScaleTime = some u →
      (reconcileScale st now newReplicas).replicas ≠ st.replicas → 60 ≤ now - u) ∧
    (∀ (stA : ScaleState) (t1 r1 t2 r2 : Nat) (mid : List (Nat × Nat)),
      (reconcileScale stA t1 r1).replicas ≠ stA.replicas →
      (∀ x ∈ mid, t1 ≤ x.1) →
      (reconcileScale (runScale (reconcileScale stA t1 r1) mid) t2 r2).replicas ≠
        (runScale (reconcileScale stA t1 r1) mid).replicas →
      t1 + 60 < t2) := by
  refine ⟨?_, ?_, ?_⟩
  · intro st now newReplicas u hu hlt
    show effectiveReplicas st now newReplicas = st.replicas
    unfold effectiveReplicas
    rw [hu]
    show (if now - u > 60 then newReplicas else st.replicas) = st.replicas
    rw [if_neg (by omega)]
  · intro st now newReplicas u hu hch
    have := reconcileScale_change_requires_staleness hu hch
    omega
  · intro stA t1 r1 t2 r2 mid h1 hmid h2
    have hst1 : (reconcileScale stA t1 r1).lastScaleTime = some t1 :=
      reconcileScale_lastScaleTime_of_change h1
    obtain ⟨w, hw, hsrc⟩ := runScale_lastScaleTime_source mid hst1
    have hwt1 : t1 ≤ w := by
      rcases hsrc with h | h
      · omega
      · obtain ⟨x, hx, hxw⟩ := List.mem_map.mp h
        have := hmid x hx
        omega
    have hstale := reconcileScale_change_requires_staleness hw h2
    omega

/-- Witness for C3: a change at time 100, a kept reconcile at 130, and the
next change at 161 — more than 60 seconds later. -/
theorem anti_flap_window_witness :
    (reconcileScale ⟨2, some 100⟩ 130 5).replicas = (⟨2, some 100⟩ : ScaleState).replicas ∧
    60 ≤ 161 - 100 ∧
    100 + 60 < 161 :=
  ⟨anti_flap_window.1 ⟨2, some 100⟩ 130 5 100 rfl (by decide),
   anti_flap_window.2.1 ⟨2, some 100⟩ 161 5 100 rfl (by decide),
   anti_flap_window.2.2 ⟨1, none⟩ 100 2 161 3 [(130, 5)] (by decide)
     (by decide) (by decide)⟩

/-- C4: for controller-created pod sets, one reconcile with effective
count `r` leaves exactly the pods `"<step>-<i>"` for `i < r`: each such
pod is present, the result has exactly `r` pods, a second reconcile with
the same `r` is a no-op, every pod whose replica annotation is `≥ r` is
deleted, and no pod with annotation `< r` is ever deleted. -/
theorem pod_lifecycle_correct (stepName : String) (r : Nat)
    (pods : List PodMeta)
    (hwf : ∀ p ∈ pods, p.name = podName stepName p.replicaAnn)
    (hnd : (pods.map PodMeta.name).Nodup) :
    (∀ i < r, (⟨podName stepName i, i⟩ : PodMeta) ∈ reconcilePods stepName r pods) ∧
    (reconcilePods stepName r pods).length = r ∧
    reconcilePods stepName r (reconcilePods stepName r pods) =
      reconcilePods stepName r pods ∧
    (∀ p ∈ reconcilePods stepName r pods, p.replicaAnn < r) ∧
    (∀ p ∈ pods, p.replicaAnn < r → p ∈ reconcilePods stepName r pods) := by
  refine ⟨fun i hi => mem_reconcilePods ⟨hwf, hnd⟩ hi,
    reconcilePods_length ⟨hwf, hnd⟩, reconcilePods_idem ⟨hwf, hnd⟩,
    reconcilePods_ann_lt, fun p hp hlt => mem_reconcilePods_of_inrange hp hlt⟩

/-- Witness for C4: scaling the pod set `["step-2"]` down-and-up to `r = 2`
creates `step-0`, `step-1` and deletes `step-2`. -/
theorem pod_lifecycle_correct_witness :
    ((⟨podName "step" 0, 0⟩ : PodMeta) ∈
      reconcilePods "step" 2 [⟨podName "step" 2, 2⟩]) ∧
    (reconcilePods "step" 2 [⟨podName "step" 2, 2⟩]).length = 2 := by
  have h := pod_lifecycle_correct "step" 2 [⟨podName "step" 2, 2⟩]
    (by decide) (by decide)
  exact ⟨h.1 0 (by decide), h.2.1⟩

/-- C7: a status merge patch is issued iff the candidate status differs
structurally from the observed one; when they are equal no patch call is
made; a conflict from the patch is swallowed, and any non-conflict result
is returned as is. -/
theorem status_patch_decision_correct (observed candidate : StepStatus)
    (patchResult : Option ApiError) :
    ((statusPatchDecision observed candidate patchResult).1 = true ↔
      observed ≠ candidate) ∧
    (observed = candidate →
      statusPatchDecision observed candidate patchResult = (false, none)) ∧
    ((statusPatchDecision observed candidate (some ApiError.conflict)).2 = none) ∧
    (observed ≠ candidate → patchResult ≠ some ApiError.conflict →
      (statusPatchDecision observed candidate patchResult).2 = patchResult) := by
  unfold statusPatchDecision
  by_cases h : observed = candidate
  · refine ⟨?_, ?_, ?_, ?_⟩
    · simp [h]
    · intro _
      simp [h]
    · simp [h]
    · intro hne
      exact absurd h hne
  · refine ⟨?_, ?_, ?_, ?_⟩
    · simp [h]
    · intro he
      exact absurd he h
    · simp [h]
    · intro _ hne
      rw [if_neg h]
      match patchResult with
      | none => rfl
      | some ApiError.conflict => exact absurd rfl hne
      | some ApiError.notFound => rfl
      | some ApiError.other => rfl

/-- Witness for C7: equal statuses produce no call; unequal statuses with
a conflict produce no reconcile error. -/
theorem status_patch_decision_correct_witness :
    statusPatchDecision
      ⟨.unknown, "", 0, none, none, none⟩ ⟨.unknown, "", 0, none, none, none⟩
      (some ApiError.other) = (false, none) ∧
    (statusPatchDecision
      ⟨.unknown, "", 0, none, none, none⟩ ⟨.running, "", 1, none, none, none⟩
      (some ApiError.conflict)).2 = none :=
  ⟨(status_patch_decision_correct ⟨.unknown, "", 0, none, none, none⟩
      ⟨.unknown, "", 0, none, none, none⟩ (some ApiError.other)).2.1 rfl,
   (status_patch_decision_correct ⟨.unknown, "", 0, none, none, none⟩
      ⟨.running, "", 1, none, none, none⟩ (some ApiError.conflict)).2.2.1⟩

/-- C8: the candidate status's `lastScaleTime` is set to the current time
iff the effective replica count differs from the previous count; when the
count is unchanged the patch leaves the stored `lastScaleTime` untouched. -/
theorem last_scale_time_iff_change (lastReplicas replicas now : Nat)
    (pods : List PodView) (stored : StepStatus) :
    ((candidateStatus lastReplicas replicas now pods).lastScaleTime =
      if lastReplicas ≠ replicas then some now else none) ∧
    (lastReplicas ≠ replicas →
      (candidateStatus lastReplicas replicas now pods).lastScaleTime = some now) ∧
    (lastReplicas = replicas →
      (applyStatusPatch stored
        (statusToPatch (candidateStatus lastReplicas replicas now pods))).lastScaleTime =
      stored.lastScaleTime) := by
  have hframe := foldl_stepAggregate_frame replicas
    (initialStatus lastReplicas replicas now) pods
  have hlst : (candidateStatus lastReplicas replicas now pods).lastScaleTime =
      if lastReplicas ≠ replicas then some now else none := hframe.2.1
  refine ⟨hlst, ?_, ?_⟩
  · intro hne
    rw [hlst, if_pos hne]
  · intro heq
    unfold applyStatusPatch statusToPatch
    simp only
    rw [hlst, if_neg (by simpa using heq)]

/-- Witness for C8: with an unchanged count the stored `lastScaleTime`
survives the patch; with a changed count the candidate carries `now`. -/
theorem last_scale_time_iff_change_witness :
    ((candidateStatus 3 5 42 []).lastScaleTime = some 42) ∧
    ((applyStatusPatch ⟨.running, "", 3, some 7, none, none⟩
        (statusToPatch (candidateStatus 3 3 42 []))).lastScaleTime = some 7) :=
  ⟨(last_scale_time_iff_change 3 5 42 [] ⟨.running, "", 3, some 7, none, none⟩).2.1
      (by decide),
   (last_scale_time_iff_change 3 3 42 [] ⟨.running, "", 3, some 7, none, none⟩).2.2
      rfl⟩

/-- C10: the controller's candidate status never carries `sourceStatuses`
or `sinkStatuses` entries (they are nil and serialized away), so its merge
patch leaves every sidecar-written per-replica metric map in the stored
status unchanged. -/
theorem controller_patch_preserves_metric_maps (lastReplicas replicas now : Nat)
    (pods : List PodView) (stored : StepStatus) :
    ((candidateStatus lastReplicas replicas now pods).sourceStatuses = none) ∧
    ((candidateStatus lastReplicas replicas now pods).sinkStatues = none) ∧
    ((statusToPatch (candidateStatus lastReplicas replicas now pods)).sourceStatuses
      = none) ∧
    ((statusToPatch (candidateStatus lastReplicas replicas now pods)).sinkStatues
      = none) ∧
    ((applyStatusPatch stored
        (statusToPatch (candidateStatus lastReplicas replicas now pods))).sourceStatuses
      = stored.sourceStatuses) ∧
    ((applyStatusPatch stored
        (statusToPatch (candidateStatus lastReplicas replicas now pods))).sinkStatues
      = stored.sinkStatues) := by
  have hframe := foldl_stepAggregate_frame replicas
    (initialStatus lastReplicas replicas now) pods
  have hsrc : (candidateStatus lastReplicas replicas now pods).sourceStatuses = none :=
    hframe.2.2.1
  have hsink : (candidateStatus lastReplicas replicas now pods).sinkStatues = none :=
    hframe.2.2.2
  refine ⟨hsrc, hsink, ?_, ?_, ?_, ?_⟩
  · show (candidateStatus lastReplicas replicas now pods).sourceStatuses = none
    exact hsrc
  · show (candidateStatus lastReplicas replicas now pods).sinkStatues = none
    exact hsink
  · unfold applyStatusPatch statusToPatch
    simp only
    rw [hsrc]
  · unfold applyStatusPatch statusToPatch
    simp only
    rw [hsink]

/-- C1: the sidecar's refresh re-applies only its own metric entries
(keyed by its replica index) into every `sourceStatuses` and
`sinkStatuses` map of the fetched state, never deleting or overwriting
another replica's key; consequently two replicas' merge cycles over their
disjoint keys leave both replicas' latest entries in the final status, in
either order. -/
theorem sidecar_reapply_disjoint_keys (r1 r2 : Nat) (loc1 loc2 v : StatusMaps)
    (hne : r1 ≠ r2)
    (hnd1s : (loc1.sourceStatuses.map Prod.fst).Nodup)
    (hnd1k : (loc1.sinkStatues.map Prod.fst).Nodup)
    (hnd2s : (loc2.sourceStatuses.map Prod.fst).Nodup)
    (hnd2k : (loc2.sinkStatues.map Prod.fst).Nodup) :
    (∀ name k, k ≠ r1 →
      statusEntry (reapplyReplica r1 loc1 v).sourceStatuses name k =
        statusEntry v.sourceStatuses name k ∧
      statusEntry (reapplyReplica r1 loc1 v).sinkStatues name k =
        statusEntry v.sinkStatues name k) ∧
    (∀ name s, (name, s) ∈ loc1.sourceStatuses →
      statusEntry (reapplyReplica r1 loc1 v).sourceStatuses name r1 =
        some (metricsRead s.metrics r1)) ∧
    (∀ name s, (name, s) ∈ loc1.sinkStatues →
      statusEntry (reapplyReplica r1 loc1 v).sinkStatues name r1 =
        some (metricsRead s.metrics r1)) ∧
    (∀ name1 s1 name2 s2,
      (name1, s1) ∈ loc1.sourceStatuses → (name2, s2) ∈ loc2.sourceStatuses →
      statusEntry (reapplyReplica r2 loc2 (reapplyReplica r1 loc1 v)).sourceStatuses
          name1 r1 = some (metricsRead s1.metrics r1) ∧
      statusEntry (reapplyReplica r2 loc2 (reapplyReplica r1 loc1 v)).sourceStatuses
          name2 r2 = some (metricsRead s2.metrics r2) ∧
      statusEntry (reapplyReplica r1 loc1 (reapplyReplica r2 loc2 v)).sourceStatuses
          name1 r1 = some (metricsRead s1.metrics r1) ∧
      statusEntry (reapplyReplica r1 loc1 (reapplyReplica r2 loc2 v)).sourceStatuses
          name2 r2 = some (metricsRead s2.metrics r2)) ∧
    (∀ name1 s1 name2 s2,
      (name1, s1) ∈ loc1.sinkStatues → (name2, s2) ∈ loc2.sinkStatues →
      statusEntry (reapplyReplica r2 loc2 (reapplyReplica r1 loc1 v)).sinkStatues
          name1 r1 = some (metricsRead s1.metrics r1) ∧
      statusEntry (reapplyReplica r2 loc2 (reapplyReplica r1 loc1 v)).sinkStatues
          name2 r2 = some (metricsRead s2.metrics r2) ∧
      statusEntry (reapplyReplica r1 loc1 (reapplyReplica r2 loc2 v)).sinkStatues
          name1 r1 = some (metricsRead s1.metrics r1) ∧
      statusEntry (reapplyReplica r1 loc1 (reapplyReplica r2 loc2 v)).sinkStatues
          name2 r2 = some (metricsRead s2.metrics r2)) := by
  refine ⟨?_, ?_, ?_, ?_, ?_⟩
  · intro name k hk
    exact ⟨statusEntry_reapplyOwn_other_key r1 loc1.sourceStatuses
        v.sourceStatuses name k hk,
      statusEntry_reapplyOwn_other_key r1 loc1.sinkStatues
        v.sinkStatues name k hk⟩
  · intro name s hmem
    exact statusEntry_reapplyOwn_self r1 loc1.sourceStatuses
      v.sourceStatuses name s hnd1s hmem
  · intro name s hmem
    exact statusEntry_reapplyOwn_self r1 loc1.sinkStatues
      v.sinkStatues name s hnd1k hmem
  · intro name1 s1 name2 s2 h1 h2
    refine ⟨?_, ?_, ?_, ?_⟩
    · rw [show (reapplyReplica r2 loc2 (reapplyReplica r1 loc1 v)).sourceStatuses =
        reapplyOwn r2 loc2.sourceStatuses
          (reapplyReplica r1 loc1 v).sourceStatuses from rfl]
      rw [statusEntry_reapplyOwn_other_key r2 loc2.sourceStatuses _ name1 r1 hne]
      exact statusEntry_reapplyOwn_self r1 loc1.sourceStatuses
        v.sourceStatuses name1 s1 hnd1s h1
    · exact statusEntry_reapplyOwn_self r2 loc2.sourceStatuses
        (reapplyReplica r1 loc1 v).sourceStatuses name2 s2 hnd2s h2
    · exact statusEntry_reapplyOwn_self r1 loc1.sourceStatuses
        (reapplyReplica r2 loc2 v).sourceStatuses name1 s1 hnd1s h1
    · rw [show (reapplyReplica r1 loc1 (reapplyReplica r2 loc2 v)).sourceStatuses =
        reapplyOwn r1 loc1.sourceStatuses
          (reapplyReplica r2 loc2 v).sourceStatuses from rfl]
      rw [statusEntry_reapplyOwn_other_key r1 loc1.sourceStatuses _ name2 r2
        (Ne.symm hne)]
      exact statusEntry_reapplyOwn_self r2 loc2.sourceStatuses
        v.sourceStatuses name2 s2 hnd2s h2
  · intro name1 s1 name2 s2 h1 h2
    refine ⟨?_, ?_, ?_, ?_⟩
    · rw [show (reapplyReplica r2 loc2 (reapplyReplica r1 loc1 v)).sinkStatues =
        reapplyOwn r2 loc2.sinkStatues
          (reapplyReplica r1 loc1 v).sinkStatues from rfl]
      rw [statusEntry_reapplyOwn_other_key r2 loc2.sinkStatues _ name1 r1 hne]
      exact statusEntry_reapplyOwn_self r1 loc1.sinkStatues
        v.sinkStatues name1 s1 hnd1k h1
    · exact statusEntry_reapplyOwn_self r2 loc2.sinkStatues
        (reapplyReplica r1 loc1 v).sinkStatues name2 s2 hnd2k h2
    · exact statusEntry_reapplyOwn_self r1 loc1.sinkStatues
        (reapplyReplica r2 loc2 v).sinkStatues name1 s1 hnd1k h1
    · rw [show (reapplyReplica r1 loc1 (reapplyReplica r2 loc2 v)).sinkStatues =
        reapplyOwn r1 loc1.sinkStatues
          (reapplyReplica r2 loc2 v).sinkStatues from rfl]
      rw [statusEntry_reapplyOwn_other_key r1 loc1.sinkStatues _ name2 r2
        (Ne.symm hne)]
      exact statusEntry_reapplyOwn_self r2 loc2.sinkStatues
        v.sinkStatues name2 s2 hnd2k h2

/-- Witness for C1: replica 0 writes `metrics["0"] = {pending:10}` and
replica 1 writes `metrics["1"] = {pending:20}` for the same source; after
both merge cycles, in either order, both entries are present. -/
theorem sidecar_reapply_disjoint_keys_witness :
    statusEntry (reapplyReplica 1 ⟨[(7, ⟨some [(1, ⟨1, 0, 20⟩)]⟩)], []⟩
        (reapplyReplica 0 ⟨[(7, ⟨some [(0, ⟨0, 0, 10⟩)]⟩)], []⟩ ⟨[], []⟩)).sourceStatuses
      7 0 = some (metricsRead (some [(0, ⟨0, 0, 10⟩)]) 0) ∧
    statusEntry (reapplyReplica 1 ⟨[(7, ⟨some [(1, ⟨1, 0, 20⟩)]⟩)], []⟩
        (reapplyReplica 0 ⟨[(7, ⟨some [(0, ⟨0, 0, 10⟩)]⟩)], []⟩ ⟨[], []⟩)).sourceStatuses
      7 1 = some (metricsRead (some [(1, ⟨1, 0, 20⟩)]) 1) ∧
    statusEntry (reapplyReplica 0 ⟨[(7, ⟨some [(0, ⟨0, 0, 10⟩)]⟩)], []⟩
        (reapplyReplica 1 ⟨[(7, ⟨some [(1, ⟨1, 0, 20⟩)]⟩)], []⟩ ⟨[], []⟩)).sourceStatuses
      7 0 = some (metricsRead (some [(0, ⟨0, 0, 10⟩)]) 0) ∧
    statusEntry (reapplyReplica 0 ⟨[(7, ⟨some [(0, ⟨0, 0, 10⟩)]⟩)], []⟩
        (reapplyReplica 1 ⟨[(7, ⟨some [(1, ⟨1, 0, 20⟩)]⟩)], []⟩ ⟨[], []⟩)).sourceStatuses
      7 1 = some (metricsRead (some [(1, ⟨1, 0, 20⟩)]) 1) := by
  have h := (sidecar_reapply_disjoint_keys 0 1
    ⟨[(7, ⟨some [(0, ⟨0, 0, 10⟩)]⟩)], []⟩
    ⟨[(7, ⟨some [(1, ⟨1, 0, 20⟩)]⟩)], []⟩
    ⟨[], []⟩ (by decide) (by decide) (by decide) (by decide) (by decide)).2.2.2.1
    7 ⟨some [(0, ⟨0, 0, 10⟩)]⟩ 7 ⟨some [(1, ⟨1, 0, 20⟩)]⟩
    (by decide) (by decide)
  exact ⟨h.1, h.2.1, h.2.2.1, h.2.2.2⟩

/-- C5 counterexample: with pods `[{ann 0, Unknown, msg "m"}, {ann 1,
Succeeded, msg ""}]` and `replicas = 2`, the aggregate phase is completed
(`Succeeded`) and a pod carries a non-empty message, yet the surfaced
status message is empty — the claim's message rule fails as stated. -/
theorem phase_aggregation_message_counterexample :
    ((candidateStatus 2 2 0 [⟨0, .unknown, "m"⟩, ⟨1, .succeeded, ""⟩]).phase.Completed
      = true) ∧
    (∃ p ∈ [(⟨0, .unknown, "m"⟩ : PodView), ⟨1, .succeeded, ""⟩],
      p.replicaAnn < 2 ∧ p.message ≠ "") ∧
    ((candidateStatus 2 2 0 [⟨0, .unknown, "m"⟩, ⟨1, .succeeded, ""⟩]).message
      = "") := by
  refine ⟨by decide, ⟨⟨0, .unknown, "m"⟩, by decide, by decide, by decide⟩, by decide⟩

/-- C5 (amended): the aggregate phase equals the minimum, under the
step-phase total order, of the retained pods' phases starting from
`Unknown` (it is a lower bound and is attained), and is `Unknown` for an
empty pod set; the surfaced message is that of the last retained pod with
a non-empty message at whose loop iteration the running aggregate phase
(the min over the pods processed so far) is completed, and empty when no
such pod exists. -/
theorem phase_aggregation_amended (lastReplicas replicas now : Nat)
    (pods : List PodView) :
    ((candidateStatus lastReplicas replicas now pods).phase =
      foldPhase .unknown ((pods.filter (inRange replicas)).map PodView.phase)) ∧
    (∀ p ∈ pods.filter (inRange replicas),
      (candidateStatus lastReplicas replicas now pods).phase.rank ≤ p.phase.rank) ∧
    ((candidateStatus lastReplicas replicas now pods).phase = .unknown ∨
      (candidateStatus lastReplicas replicas now pods).phase ∈
        (pods.filter (inRange replicas)).map PodView.phase) ∧
    (pods.filter (inRange replicas) = [] →
      (candidateStatus lastReplicas replicas now pods).phase = .unknown) ∧
    ((candidateStatus lastReplicas replicas now pods).message =
      ((qualifyingMsgs replicas pods).getLast?).getD "") := by
  have hphase : (candidateStatus lastReplicas replicas now pods).phase =
      foldPhase .unknown ((pods.filter (inRange replicas)).map PodView.phase) :=
    candidate_phase_eq_foldPhase replicas (initialStatus lastReplicas replicas now) pods
  refine ⟨hphase, ?_, ?_, ?_, candidate_message_spec lastReplicas replicas now pods⟩
  · intro p hp
    rw [hphase]
    exact (foldPhase_rank_le _ .unknown).2 p.phase (List.mem_map_of_mem PodView.phase hp)
  · rw [hphase]
    exact foldPhase_attained _ .unknown
  · intro hempty
    rw [hphase, hempty]
    rfl

/-- Witness for C5 (amended): one failing retained pod with a message
drags the aggregate to `Failed` and its message is surfaced. -/
theorem phase_aggregation_amended_witness :
    (∀ p ∈ ([⟨0, .failed, "boom"⟩, ⟨1, .running, ""⟩] :
        List PodView).filter (inRange 2),
      (candidateStatus 2 2 0 [⟨0, .failed, "boom"⟩, ⟨1, .running, ""⟩]).phase.rank
        ≤ p.phase.rank) ∧
    ((candidateStatus 2 2 0 [⟨0, .failed, "boom"⟩, ⟨1, .running, ""⟩]).message =
      ((qualifyingMsgs 2 [⟨0, .failed, "boom"⟩, ⟨1, .running, ""⟩]).getLast?).getD "") := by
  have h := phase_aggregation_amended 2 2 0 [⟨0, .failed, "boom"⟩, ⟨1, .running, ""⟩]
  exact ⟨h.2.1, h.2.2.2.2⟩

theorem runTerminator_with_main (outcome : ExecOutcome)
    (l : List ContainerStatus)
    (hnd : (l.map ContainerStatus.name).Nodup)
    (hmain : ∃ s ∈ l, s.name = "main" ∧ s.terminated = true) :
    runTerminator outcome l =
      if outcome = .spdyError then .error .execFailed
      else if outcome = .streamError then .error .streamFailed
      else .ok ["main"] := by
  induction l with
  | nil =>
      obtain ⟨s, hs, -⟩ := hmain
      cases hs
  | cons hd tl ih =>
      simp only [List.map_cons, List.nodup_cons] at hnd
      by_cases hhd : hd.name = "main" ∧ hd.terminated = true
      · have htl : ∀ s ∈ tl, ¬(s.name = "main" ∧ s.terminated = true) := by
          intro s hs hcontr
          apply hnd.1
          rw [hhd.1, ← hcontr.1]
          exact List.mem_map_of_mem ContainerStatus.name hs
        unfold runTerminator
        rw [if_pos hhd]
        by_cases ho1 : outcome = .spdyError
        · rw [if_pos ho1, if_pos ho1]
        · rw [if_neg ho1, if_neg ho1]
          by_cases ho2 : outcome = .streamError
          · rw [if_pos ho2, if_pos ho2]
          · rw [if_neg ho2, if_neg ho2, runTerminator_no_main outcome tl htl,
              hhd.1]
            rfl
      · have hmain2 : ∃ s ∈ tl, s.name = "main" ∧ s.terminated = true := by
          obtain ⟨s, hs, hprop⟩ := hmain
          rcases List.mem_cons.mp hs with h | h
          · exact absurd (h ▸ hprop) hhd
          · exact ⟨s, h, hprop⟩
        unfold runTerminator
        rw [if_neg hhd]
        exact ih hnd.2 hmain2

/-- C6: for a retained pod whose `"main"` container has terminated while
its sidecar container is still running, exactly one remote-termination
exec request is issued (the kill loop fires once); a "container not
found" stream failure is swallowed, a failure to build the executor or
any other stream failure is returned as a reconcile error. -/
theorem remote_terminator_correct (outcome : ExecOutcome)
    (statuses : List ContainerStatus)
    (hnd : (statuses.map ContainerStatus.name).Nodup)
    (hmain : ∃ s ∈ statuses, s.name = "main" ∧ s.terminated = true)
    (_hsidecar : ∃ s ∈ statuses, s.name = "sidecar" ∧ s.running = true) :
    ((outcome = .streamOk ∨ outcome = .containerNotFound) →
      runTerminator outcome statuses = .ok ["main"]) ∧
    (outcome = .spdyError →
      runTerminator outcome statuses = .error .execFailed) ∧
    (outcome = .streamError →
      runTerminator outcome statuses = .error .streamFailed) := by
  have h := runTerminator_with_main outcome statuses hnd hmain
  refine ⟨?_, ?_, ?_⟩
  · intro ho
    rw [h]
    rcases ho with ho | ho <;> subst ho <;> rfl
  · intro ho
    subst ho
    rw [h]
    rfl
  · intro ho
    subst ho
    rw [h]
    rfl

/-- Witness for C6: a pod with a terminated main container and a running
sidecar; the stream reports "container not found", which is swallowed, and
exactly one request ran. -/
theorem remote_terminator_correct_witness :
    runTerminator .containerNotFound
      [⟨"sidecar", false, true⟩, ⟨"main", true, false⟩] = .ok ["main"] :=
  (remote_terminator_correct .containerNotFound
      [⟨"sidecar", false, true⟩, ⟨"main", true, false⟩]
      (by decide)
      ⟨⟨"main", true, false⟩, by decide, rfl, rfl⟩
      ⟨⟨"sidecar", false, true⟩, by decide, rfl, rfl⟩).1
    (Or.inr rfl)

/-- C9: the sidecar merge cycle never propagates an error: the pre-patch
hooks all run, in registration order, strictly before the compare-and-patch
step (even when hooks fail), and a "not found" patch failure leaves the
state as the hooks left it and completes the cycle normally. -/
theorem sidecar_cycle_no_error (replica : Nat) (hooks : List PrePatchHook)
    (patchApi : StepStatus → PatchOutcome) (st : SidecarState) :
    ((runPrePatchHooks hooks st).2.filterMap SidecarEvent.hookName =
      hooks.map PrePatchHook.name) ∧
    (∃ pevs, (patchStepStatus replica hooks patchApi st).2 =
        (runPrePatchHooks hooks st).2 ++ pevs ∧
      pevs.filterMap SidecarEvent.hookName = []) ∧
    ((runPrePatchHooks hooks st).1.lastStep ≠ (runPrePatchHooks hooks st).1.step →
      patchApi (runPrePatchHooks hooks st).1.step = PatchOutcome.notFound →
      patchStepStatus replica hooks patchApi st =
        ((runPrePatchHooks hooks st).1,
         (runPrePatchHooks hooks st).2 ++
           [SidecarEvent.patchIssued, SidecarEvent.patchNotFound])) := by
  refine ⟨runPrePatchHooks_names hooks st, ?_, ?_⟩
  · simp only [patchStepStatus]
    by_cases hc : (runPrePatchHooks hooks st).1.lastStep =
        (runPrePatchHooks hooks st).1.step
    · rw [if_pos hc]
      exact ⟨[SidecarEvent.patchSkipped], rfl, rfl⟩
    · rw [if_neg hc]
      cases hpa : patchApi (runPrePatchHooks hooks st).1.step with
      | ok fetched =>
          exact ⟨[SidecarEvent.patchIssued, SidecarEvent.refreshed], rfl, rfl⟩
      | notFound =>
          exact ⟨[SidecarEvent.patchIssued, SidecarEvent.patchNotFound], rfl, rfl⟩
      | apiError =>
          exact ⟨[SidecarEvent.patchIssued, SidecarEvent.patchFailed], rfl, rfl⟩
  · intro hne hnf
    simp only [patchStepStatus]
    rw [if_neg hne, hnf]

/-- Witness for C9: a failing pre-patch hook followed by a "not found"
patch result still completes the cycle, with the hook event first. -/
theorem sidecar_cycle_no_error_witness :
    patchStepStatus 0 [⟨"flush", fun s => (s, true)⟩]
      (fun _ => PatchOutcome.notFound)
      ⟨⟨.running, "", 1, none, none, none⟩, ⟨.unknown, "", 0, none, none, none⟩⟩ =
      ((runPrePatchHooks [⟨"flush", fun s => (s, true)⟩]
          ⟨⟨.running, "", 1, none, none, none⟩,
            ⟨.unknown, "", 0, none, none, none⟩⟩).1,
       (runPrePatchHooks [⟨"flush", fun s => (s, true)⟩]
          ⟨⟨.running, "", 1, none, none, none⟩,
            ⟨.unknown, "", 0, none, none, none⟩⟩).2 ++
         [SidecarEvent.patchIssued, SidecarEvent.patchNotFound]) :=
  (sidecar_cycle_no_error 0 [⟨"flush", fun s => (s, true)⟩]
      (fun _ => PatchOutcome.notFound)
      ⟨⟨.running, "", 1, none, none, none⟩,
        ⟨.unknown, "", 0, none, none, none⟩⟩).2.2
    (by decide) rfl

end ArgoDataflow
